import Mathlib

/-!
Verification of the tabular Q-learning agent in blackjack_agent.py.

The Python class BlackjackAgent is embedded shallowly: the dict q_table
becomes an insertion-ordered association list over keys (String × ℤ), Python
floats become exact rationals, and the two random draws inside action become
explicit arguments. Methods that mutate the object return the updated record
next to their Python return value.
-/

namespace Blackjack

/-- Python values that occur as observations. The reference code treats an
observation as an opaque value and converts it with str; integer and string
observations suffice for the properties proved below. -/
inductive PyObj where
  | pyInt : ℤ → PyObj
  | pyStr : String → PyObj
deriving DecidableEq

/-- Python str applied to a PyObj. -/
def pyString : PyObj → String
  | .pyInt n => toString n
  | .pyStr s => s

/-- The q_table: a Python dict from (state, action) to a value, modelled as an
insertion-ordered association list. -/
abbrev QTable := List ((String × ℤ) × ℚ)

/-- dict.get(k, d): the value at the first matching key, else the default d. -/
def qGet (t : QTable) (k : String × ℤ) (d : ℚ) : ℚ :=
  match t.find? (fun p => p.1 == k) with
  | some p => p.2
  | none => d

/-- Key membership in the dict. -/
def hasKey (t : QTable) (k : String × ℤ) : Bool :=
  t.any (fun p => p.1 == k)

/-- dict assignment: update the existing binding in place when the key is
present, else append a new binding at the end. -/
def qSet (t : QTable) (k : String × ℤ) (v : ℚ) : QTable :=
  if hasKey t k then t.map (fun p => if p.1 == k then (k, v) else p)
  else t ++ [(k, v)]

/-- Python max over a list of values. The reference code only applies it to
nonempty lists (the per-action value lists over actions = [0, 1]); the empty
case, where Python raises, is given the unused value 0. -/
def listMax : List ℚ → ℚ
  | [] => 0
  | v :: vs => vs.foldl max v

/-- The attributes set by BlackjackAgent.__init__. -/
structure BlackjackAgent where
  q_table : QTable
  learning_rate : ℚ
  discount_factor : ℚ
  exploration_rate : ℚ
  actions : List ℤ
deriving DecidableEq

/-- BlackjackAgent.__init__: it takes no parameters and assigns fixed
attribute values. -/
def BlackjackAgent.init : BlackjackAgent :=
  { q_table := []
    learning_rate := 1/10
    discount_factor := 9/10
    exploration_rate := 1/10
    actions := [0, 1] }

/-- BlackjackAgent._get_state: str(observation). -/
def BlackjackAgent.getState (ag : BlackjackAgent) (o : PyObj) : String :=
  pyString o

/-- BlackjackAgent._get_best_action: values = [q_table.get((state, a), 0) for
a in actions]; return actions[values.index(max(values))]. Python list.index
yields the first position of its argument, so the whole expression is the
first action attaining the maximal value. For empty actions Python raises; we
return 0 there, a case no claim exercises. -/
def BlackjackAgent.getBestAction (ag : BlackjackAgent) (state : String) : ℤ :=
  let values := ag.actions.map (fun a => qGet ag.q_table (state, a) 0)
  ag.actions.getD (values.indexOf (listMax values)) 0

/-- BlackjackAgent.action: the two random draws of the Python code, the
uniform roll in [0, 1) and the random choice, are passed explicitly (roll and
pick); the returned pair carries the agent so that the absence of mutation is
part of the embedding. -/
def BlackjackAgent.action (ag : BlackjackAgent) (o : PyObj)
    (exploit_only : Bool) (roll : ℚ) (pick : ℕ) : ℤ × BlackjackAgent :=
  if exploit_only = false ∧ roll < ag.exploration_rate then
    (ag.actions.getD (pick % ag.actions.length) 0, ag)
  else
    (ag.getBestAction (ag.getState o), ag)

/-- BlackjackAgent.learn: the temporal-difference update. Returns the error
magnitude next to the updated agent. The terminated argument is accepted and,
as in the source, never read. -/
def BlackjackAgent.learn (ag : BlackjackAgent) (act : ℤ) (o : PyObj)
    (reward : ℚ) (terminated : Bool) (next_o : PyObj) : ℚ × BlackjackAgent :=
  let current_state := ag.getState o
  let next_state := ag.getState next_o
  let old_value := qGet ag.q_table (current_state, act) 0
  let next_max := listMax (ag.actions.map (fun a => qGet ag.q_table (next_state, a) 0))
  let new_value := (1 - ag.learning_rate) * old_value +
    ag.learning_rate * (reward + ag.discount_factor * next_max)
  (|old_value - new_value|,
    { ag with q_table := qSet ag.q_table (current_state, act) new_value })

/-- One externally visible call against the agent, with all randomness
explicit: either an action query or a learn update. -/
inductive AgentOp where
  | act : PyObj → Bool → ℚ → ℕ → AgentOp
  | upd : ℤ → PyObj → ℚ → Bool → PyObj → AgentOp

/-- The agent state after one call. -/
def applyOp (ag : BlackjackAgent) : AgentOp → BlackjackAgent
  | .act o x roll pick => (ag.action o x roll pick).2
  | .upd a o r b o' => (ag.learn a o r b o').2

/-- The agent state after a sequence of calls. -/
def runOps (ag : BlackjackAgent) (ops : List AgentOp) : BlackjackAgent :=
  ops.foldl applyOp ag

/-- The agent the fixed constructor yields, spelt out. -/
def initAgent : BlackjackAgent :=
  { q_table := []
    learning_rate := 1/10
    discount_factor := 9/10
    exploration_rate := 1/10
    actions := [0, 1] }

/-- The worked example of the spec: learning rate one half, discount factor
nine tenths, and a table holding 0 at ("B", 0) and 10 at ("B", 1). -/
def exampleAgent : BlackjackAgent :=
  { q_table := [(("B", 0), 0), (("B", 1), 10)]
    learning_rate := 1/2
    discount_factor := 9/10
    exploration_rate := 0
    actions := [0, 1] }

/-- An agent with learning rate one half and discount factor zero, used for
the convergence property. -/
def halfAgent : BlackjackAgent :=
  { q_table := []
    learning_rate := 1/2
    discount_factor := 0
    exploration_rate := 0
    actions := [0, 1] }

/-- Repeated learn calls on one fixed transition. -/
def iterLearn (ag : BlackjackAgent) (act : ℤ) (o next_o : PyObj) (r : ℚ) :
    ℕ → BlackjackAgent
  | 0 => ag
  | n + 1 => ((iterLearn ag act o next_o r n).learn act o r true next_o).2

section DictLemmas

lemma hasKey_nil (k : String × ℤ) : hasKey [] k = false := rfl

lemma hasKey_cons (p : (String × ℤ) × ℚ) (t : QTable) (k : String × ℤ) :
    hasKey (p :: t) k = ((p.1 == k) || hasKey t k) := by
  simp [hasKey, List.any_cons]

lemma qGet_cons (p : (String × ℤ) × ℚ) (t : QTable) (k : String × ℤ) (d : ℚ) :
    qGet (p :: t) k d = if p.1 = k then p.2 else qGet t k d := by
  by_cases h : p.1 = k
  · simp [qGet, List.find?_cons, h]
  · simp [qGet, List.find?_cons, h]

lemma qGet_map_update (t : QTable) (k : String × ℤ) (v d : ℚ)
    (h : hasKey t k = true) :
    qGet (t.map (fun p => if p.1 == k then (k, v) else p)) k d = v := by
  induction t with
  | nil => simp [hasKey] at h
  | cons p ps ih =>
      rw [hasKey_cons] at h
      by_cases hp : p.1 = k
      · simp [List.map_cons, hp, qGet_cons]
      · have hb : (p.1 == k) = false := by simp [hp]
        simp only [List.map_cons, hb, if_neg, Bool.false_or] at h ⊢
        rw [if_neg (by simp [hp]), qGet_cons, if_neg hp]
        exact ih h

lemma qGet_append_single (t : QTable) (k : String × ℤ) (v d : ℚ)
    (h : hasKey t k = false) :
    qGet (t ++ [(k, v)]) k d = v := by
  induction t with
  | nil => simp [qGet, List.find?_cons]
  | cons p ps ih =>
      rw [hasKey_cons, Bool.or_eq_false_iff] at h
      have hp : ¬ p.1 = k := by simpa using h.1
      rw [List.cons_append, qGet_cons, if_neg hp]
      exact ih h.2

lemma qGet_qSet_self (t : QTable) (k : String × ℤ) (v d : ℚ) :
    qGet (qSet t k v) k d = v := by
  unfold qSet
  by_cases h : hasKey t k = true
  · rw [if_pos h]; exact qGet_map_update t k v d h
  · rw [if_neg h]
    exact qGet_append_single t k v d (by simpa using h)

lemma hasKey_append (t s : QTable) (k : String × ℤ) :
    hasKey (t ++ s) k = (hasKey t k || hasKey s k) := by
  simp [hasKey, List.any_append]

lemma qGet_append_single_ne (t : QTable) (k k' : String × ℤ) (v d : ℚ)
    (h : k' ≠ k) :
    qGet (t ++ [(k, v)]) k' d = qGet t k' d := by
  induction t with
  | nil =>
      rw [List.nil_append, qGet_cons, if_neg (fun hh => h hh.symm)]
  | cons p ps ih =>
      rw [List.cons_append, qGet_cons, qGet_cons]
      by_cases hq : p.1 = k'
      · rw [if_pos hq, if_pos hq]
      · rw [if_neg hq, if_neg hq]; exact ih

lemma qGet_qSet_ne (t : QTable) (k k' : String × ℤ) (v d : ℚ)
    (h : k' ≠ k) :
    qGet (qSet t k v) k' d = qGet t k' d := by
  unfold qSet
  by_cases hk : hasKey t k = true
  · rw [if_pos hk]
    clear hk
    induction t with
    | nil => rfl
    | cons p ps ih =>
        by_cases hp : p.1 = k
        · have hb : (p.1 == k) = true := by simp [hp]
          rw [List.map_cons, hb, if_pos rfl, qGet_cons, qGet_cons,
            if_neg (fun hh => h hh.symm), if_neg (by rw [hp]; exact fun hh => h hh.symm)]
          exact ih
        · rw [List.map_cons, if_neg (by simp [hp]), qGet_cons, qGet_cons]
          by_cases hq : p.1 = k'
          · rw [if_pos hq, if_pos hq]
          · rw [if_neg hq, if_neg hq]; exact ih
  · rw [if_neg hk]
    exact qGet_append_single_ne t k k' v d h

lemma hasKey_map_update (t : QTable) (k k' : String × ℤ) (v : ℚ)
    (hk : hasKey t k = true) :
    hasKey (t.map (fun p => if p.1 == k then (k, v) else p)) k' = hasKey t k' := by
  clear hk
  induction t with
  | nil => rfl
  | cons p ps ih =>
      by_cases hp : p.1 = k
      · have hb : (p.1 == k) = true := by simp [hp]
        rw [List.map_cons, hb, if_pos rfl, hasKey_cons, hasKey_cons, ih, hp]
      · rw [List.map_cons, if_neg (by simp [hp]), hasKey_cons, hasKey_cons, ih]

lemma hasKey_qSet (t : QTable) (k k' : String × ℤ) (v : ℚ) :
    hasKey (qSet t k v) k' = (hasKey t k' || decide (k' = k)) := by
  unfold qSet
  by_cases hk : hasKey t k = true
  · rw [if_pos hk, hasKey_map_update t k k' v hk]
    by_cases he : k' = k
    · subst he; simp [hk]
    · simp [he]
  · rw [if_neg hk, hasKey_append]
    have hone : hasKey [(k, v)] k' = decide (k' = k) := by
      by_cases he : k' = k
      · subst he; simp [hasKey]
      · have hne : ¬ k = k' := fun hh => he hh.symm
        simp [hasKey, hne, he]
    rw [hone]

end DictLemmas

section MaxLemmas

lemma foldl_max_mem (vs : List ℚ) (v : ℚ) : vs.foldl max v ∈ v :: vs := by
  induction vs generalizing v with
  | nil => simp
  | cons w ws ih =>
      rw [List.foldl_cons]
      rcases List.mem_cons.1 (ih (max v w)) with h1 | h1
      · rcases max_choice v w with h2 | h2
        · rw [h1, h2]; exact List.mem_cons_self _ _
        · rw [h1, h2]; exact List.mem_cons_of_mem _ (List.mem_cons_self _ _)
      · exact List.mem_cons_of_mem _ (List.mem_cons_of_mem _ h1)

lemma listMax_mem (l : List ℚ) (h : l ≠ []) : listMax l ∈ l := by
  cases l with
  | nil => exact absurd rfl h
  | cons v vs => exact foldl_max_mem vs v

lemma find_first_max (f : ℤ → ℚ) (m : ℚ) (acts : List ℤ)
    (h : m ∈ acts.map f) :
    acts.find? (fun a => f a == m) =
      some (acts.getD ((acts.map f).indexOf m) 0) := by
  induction acts with
  | nil => simp at h
  | cons a as ih =>
      rw [List.find?_cons, List.map_cons, List.indexOf_cons]
      by_cases ha : f a = m
      · have hb : (f a == m) = true := by simp [ha]
        simp only [hb]
        simp
      · have hb : (f a == m) = false := by simp [ha]
        simp only [hb]
        rw [List.map_cons] at h
        have hm : m ∈ as.map f := by
          rcases List.mem_cons.mp h with h1 | h1
          · exact absurd h1.symm ha
          · exact h1
        rw [ih hm]
        simp [List.getD_cons_succ]

/-- The greedy selection of _get_best_action is the first action of the
action list whose value attains the maximum. -/
lemma getBestAction_finds_first (ag : BlackjackAgent) (s : String)
    (h : ag.actions ≠ []) :
    ag.actions.find?
      (fun a => qGet ag.q_table (s, a) 0 ==
        listMax (ag.actions.map (fun a => qGet ag.q_table (s, a) 0))) =
      some (ag.getBestAction s) := by
  have hmem : listMax (ag.actions.map (fun a => qGet ag.q_table (s, a) 0)) ∈
      ag.actions.map (fun a => qGet ag.q_table (s, a) 0) :=
    listMax_mem _ (fun hh => h (List.map_eq_nil_iff.mp hh))
  simpa [BlackjackAgent.getBestAction] using
    find_first_max (fun a => qGet ag.q_table (s, a) 0) _ ag.actions hmem

end MaxLemmas

section LearnLemmas

/-- The value learn stores, written out. -/
def learnValue (ag : BlackjackAgent) (act : ℤ) (o : PyObj) (reward : ℚ)
    (next_o : PyObj) : ℚ :=
  (1 - ag.learning_rate) * qGet ag.q_table (ag.getState o, act) 0 +
    ag.learning_rate * (reward + ag.discount_factor *
      listMax (ag.actions.map (fun a => qGet ag.q_table (ag.getState next_o, a) 0)))

lemma learn_q_table (ag : BlackjackAgent) (act : ℤ) (o : PyObj) (r : ℚ)
    (b : Bool) (o' : PyObj) :
    (ag.learn act o r b o').2.q_table =
      qSet ag.q_table (ag.getState o, act) (learnValue ag act o r o') := rfl

lemma learn_fst (ag : BlackjackAgent) (act : ℤ) (o : PyObj) (r : ℚ)
    (b : Bool) (o' : PyObj) :
    (ag.learn act o r b o').1 =
      |qGet ag.q_table (ag.getState o, act) 0 - learnValue ag act o r o'| := rfl

lemma learn_learning_rate (ag : BlackjackAgent) (act : ℤ) (o : PyObj) (r : ℚ)
    (b : Bool) (o' : PyObj) :
    (ag.learn act o r b o').2.learning_rate = ag.learning_rate := rfl

lemma learn_discount_factor (ag : BlackjackAgent) (act : ℤ) (o : PyObj) (r : ℚ)
    (b : Bool) (o' : PyObj) :
    (ag.learn act o r b o').2.discount_factor = ag.discount_factor := rfl

lemma learn_actions (ag : BlackjackAgent) (act : ℤ) (o : PyObj) (r : ℚ)
    (b : Bool) (o' : PyObj) :
    (ag.learn act o r b o').2.actions = ag.actions := rfl

lemma action_snd (ag : BlackjackAgent) (o : PyObj) (x : Bool) (roll : ℚ)
    (pick : ℕ) : (ag.action o x roll pick).2 = ag := by
  unfold BlackjackAgent.action
  by_cases h : x = false ∧ roll < ag.exploration_rate
  · rw [if_pos h]
  · rw [if_neg h]

end LearnLemmas

section IterLemmas

lemma iterLearn_learning_rate (ag : BlackjackAgent) (act : ℤ) (o o' : PyObj)
    (r : ℚ) (n : ℕ) :
    (iterLearn ag act o o' r n).learning_rate = ag.learning_rate := by
  induction n with
  | zero => rfl
  | succ n ih => rw [iterLearn, learn_learning_rate, ih]

lemma iterLearn_discount_factor (ag : BlackjackAgent) (act : ℤ) (o o' : PyObj)
    (r : ℚ) (n : ℕ) :
    (iterLearn ag act o o' r n).discount_factor = ag.discount_factor := by
  induction n with
  | zero => rfl
  | succ n ih => rw [iterLearn, learn_discount_factor, ih]

/-- Closed form for the repeated update with reward 1 and discount factor 0:
after n calls the stored value is 1 - (1 - learning rate) ^ n. -/
lemma iterLearn_value (ag : BlackjackAgent) (act : ℤ) (o o' : PyObj)
    (hdf : ag.discount_factor = 0)
    (h0 : qGet ag.q_table (ag.getState o, act) 0 = 0) (n : ℕ) :
    qGet (iterLearn ag act o o' 1 n).q_table (ag.getState o, act) 0 =
      1 - (1 - ag.learning_rate) ^ n := by
  induction n with
  | zero => rw [iterLearn, h0, pow_zero, sub_self]
  | succ n ih =>
      rw [iterLearn, learn_q_table]
      have hst : (iterLearn ag act o o' 1 n).getState o = ag.getState o := rfl
      rw [hst, qGet_qSet_self]
      unfold learnValue
      rw [hst, ih, iterLearn_learning_rate, iterLearn_discount_factor, hdf]
      ring

end IterLemmas

/-- Claim C1: learn computes old value, next max, stores the convex update
into the table at the current (state, action) key and returns the absolute
change; on the worked example with learning rate one half and discount nine
tenths, the stored value and the returned error are both 4.5. -/
theorem claim1_learn_update_rule :
    (∀ (ag : BlackjackAgent) (act : ℤ) (o : PyObj) (r : ℚ) (b : Bool) (o' : PyObj),
      (ag.learn act o r b o').1 =
        |qGet ag.q_table (ag.getState o, act) 0 - learnValue ag act o r o'| ∧
      qGet (ag.learn act o r b o').2.q_table (ag.getState o, act) 0 =
        learnValue ag act o r o') ∧
    (exampleAgent.learn 1 (.pyStr "A") 0 false (.pyStr "B")).1 = 9/2 ∧
    qGet (exampleAgent.learn 1 (.pyStr "A") 0 false (.pyStr "B")).2.q_table
      ("A", 1) 0 = 9/2 := by
  refine ⟨fun ag act o r b o' => ⟨learn_fst ag act o r b o', ?_⟩, ?_, ?_⟩
  · rw [learn_q_table, qGet_qSet_self]
  · simp [BlackjackAgent.learn, BlackjackAgent.getState, pyString, qGet,
      listMax, qSet, hasKey, exampleAgent]
    norm_num
  · simp [BlackjackAgent.learn, BlackjackAgent.getState, pyString, qGet,
      listMax, qSet, hasKey, exampleAgent]
    norm_num

/-- Claim C2: the terminated argument never influences learn; calls differing
only in it produce the same error and the same agent. -/
theorem claim2_terminated_irrelevant :
    ∀ (ag : BlackjackAgent) (act : ℤ) (o : PyObj) (r : ℚ) (o' : PyObj),
      ag.learn act o r true o' = ag.learn act o r false o' := by
  intro ag act o r o'
  rfl

/-- Claim C3: greedy selection returns the first action of the enumeration
attaining the maximal value, and a fresh agent exploiting always returns
action 0. -/
theorem claim3_greedy_tiebreak_first :
    (∀ (ag : BlackjackAgent) (s : String), ag.actions ≠ [] →
      ag.actions.find?
        (fun a => qGet ag.q_table (s, a) 0 ==
          listMax (ag.actions.map (fun a => qGet ag.q_table (s, a) 0))) =
        some (ag.getBestAction s)) ∧
    (∀ (o : PyObj) (roll : ℚ) (pick : ℕ),
      (BlackjackAgent.init.action o true roll pick).1 = 0) := by
  constructor
  · exact getBestAction_finds_first
  · intro o roll pick
    simp [BlackjackAgent.action, BlackjackAgent.getBestAction,
      BlackjackAgent.getState, BlackjackAgent.init, qGet, listMax,
      List.indexOf, List.findIdx, List.findIdx.go]

theorem claim3_witness :
    BlackjackAgent.init.actions ≠ [] ∧
    BlackjackAgent.init.actions.find?
      (fun a => qGet BlackjackAgent.init.q_table ("s", a) 0 ==
        listMax (BlackjackAgent.init.actions.map
          (fun a => qGet BlackjackAgent.init.q_table ("s", a) 0))) =
      some (BlackjackAgent.init.getBestAction "s") :=
  ⟨by decide, claim3_greedy_tiebreak_first.1 BlackjackAgent.init "s" (by decide)⟩

/-- Claim C4: learn writes exactly the current (state, action) key; every
other key keeps its value and its presence, so no key of the next state is
newly created. -/
theorem claim4_frame :
    ∀ (ag : BlackjackAgent) (act : ℤ) (o : PyObj) (r : ℚ) (b : Bool)
      (o' : PyObj) (k : String × ℤ) (d : ℚ), k ≠ (ag.getState o, act) →
      qGet (ag.learn act o r b o').2.q_table k d = qGet ag.q_table k d ∧
      hasKey (ag.learn act o r b o').2.q_table k = hasKey ag.q_table k ∧
      hasKey (ag.learn act o r b o').2.q_table (ag.getState o, act) = true := by
  intro ag act o r b o' k d hk
  rw [learn_q_table]
  refine ⟨qGet_qSet_ne _ _ _ _ _ hk, ?_, ?_⟩
  · rw [hasKey_qSet]
    simp [hk]
  · rw [hasKey_qSet]
    simp

theorem claim4_witness :
    qGet (BlackjackAgent.init.learn 0 (.pyStr "A") 1 true (.pyStr "B")).2.q_table
        ("B", 0) 0 = qGet BlackjackAgent.init.q_table ("B", 0) 0 ∧
    hasKey (BlackjackAgent.init.learn 0 (.pyStr "A") 1 true (.pyStr "B")).2.q_table
        ("B", 0) = hasKey BlackjackAgent.init.q_table ("B", 0) ∧
    hasKey (BlackjackAgent.init.learn 0 (.pyStr "A") 1 true (.pyStr "B")).2.q_table
        (BlackjackAgent.init.getState (.pyStr "A"), 0) = true :=
  claim4_frame BlackjackAgent.init 0 (.pyStr "A") 1 true (.pyStr "B")
    ("B", 0) 0 (by decide)

/-- Claim C5 counterexample: the constructor of the source takes no
configuration at all; it always succeeds and yields the one fixed agent with
learning rate 0.1, discount factor 0.9, exploration rate 0.1 and actions
[0, 1], so no out of range value can reach construction and no fail fast
path exists. -/
theorem claim5_counterexample :
    BlackjackAgent.init.learning_rate = 1/10 ∧
    BlackjackAgent.init.discount_factor = 9/10 ∧
    BlackjackAgent.init.exploration_rate = 1/10 ∧
    BlackjackAgent.init.actions = [0, 1] ∧
    BlackjackAgent.init.q_table = [] := by
  refine ⟨rfl, rfl, rfl, rfl, rfl⟩

/-- Claim C5 amended: construction takes no options and never fails; the
hyperparameters are fixed for the object lifetime at constants that lie
inside the valid ranges, and no validation is performed. -/
theorem claim5_amended_fixed_construction :
    BlackjackAgent.init = initAgent ∧
    0 < BlackjackAgent.init.learning_rate ∧
    BlackjackAgent.init.learning_rate ≤ 1 ∧
    0 ≤ BlackjackAgent.init.discount_factor ∧
    BlackjackAgent.init.discount_factor ≤ 1 ∧
    0 ≤ BlackjackAgent.init.exploration_rate ∧
    BlackjackAgent.init.exploration_rate ≤ 1 := by
  refine ⟨rfl, ?_, ?_, ?_, ?_, ?_, ?_⟩ <;> norm_num [BlackjackAgent.init]

/-- Claim C6 counterexample: learn called with action 5, which is outside the
configured action set, raises nothing and silently stores a phantom entry
under that action. -/
theorem claim6_counterexample :
    (5 : ℤ) ∉ BlackjackAgent.init.actions ∧
    hasKey (BlackjackAgent.init.learn 5 (.pyStr "A") 0 false
      (.pyStr "A")).2.q_table ("A", 5) = true := by
  constructor
  · decide
  · rw [learn_q_table, hasKey_qSet]
    simp [BlackjackAgent.getState, pyString]

/-- Claim C6 amended: learn accepts any integer action, also one outside the
configured action set, raises no error and writes the table entry for the
current state and that action with the usual update value. -/
theorem claim6_amended_silent_write :
    ∀ (ag : BlackjackAgent) (act : ℤ) (o : PyObj) (r : ℚ) (b : Bool)
      (o' : PyObj), act ∉ ag.actions →
      hasKey (ag.learn act o r b o').2.q_table (ag.getState o, act) = true ∧
      qGet (ag.learn act o r b o').2.q_table (ag.getState o, act) 0 =
        learnValue ag act o r o' := by
  intro ag act o r b o' _
  rw [learn_q_table]
  exact ⟨by rw [hasKey_qSet]; simp, qGet_qSet_self _ _ _ _⟩

theorem claim6_witness :
    (5 : ℤ) ∉ BlackjackAgent.init.actions ∧
    (hasKey (BlackjackAgent.init.learn 5 (.pyStr "A") 0 false
        (.pyStr "B")).2.q_table (BlackjackAgent.init.getState (.pyStr "A"), 5) =
      true ∧
     qGet (BlackjackAgent.init.learn 5 (.pyStr "A") 0 false
        (.pyStr "B")).2.q_table (BlackjackAgent.init.getState (.pyStr "A"), 5) 0 =
      learnValue BlackjackAgent.init 5 (.pyStr "A") 0 (.pyStr "B")) :=
  ⟨by decide, claim6_amended_silent_write BlackjackAgent.init 5 (.pyStr "A") 0
    false (.pyStr "B") (by decide)⟩

/-- Claim C7 counterexample: with learning rate one half, discount factor 0
and reward 1, one update starting from an absent entry stores one half, whose
distance to 1 equals one half and is not strictly below it, so the strict
bound of the claim fails in exact arithmetic. -/
theorem claim7_counterexample :
    qGet (iterLearn halfAgent 0 (.pyStr "A") (.pyStr "A") 1 1).q_table
      ("A", 0) 0 = 1/2 ∧
    ¬ (|qGet (iterLearn halfAgent 0 (.pyStr "A") (.pyStr "A") 1 1).q_table
        ("A", 0) 0 - 1| < (1 - halfAgent.learning_rate) ^ 1) := by
  have h : qGet (iterLearn halfAgent 0 (.pyStr "A") (.pyStr "A") 1 1).q_table
      ("A", 0) 0 = 1/2 := by
    simp [iterLearn, BlackjackAgent.learn, BlackjackAgent.getState, pyString,
      qGet, qSet, hasKey, listMax, halfAgent]
  refine ⟨h, ?_⟩
  rw [h]
  norm_num [halfAgent, abs_of_nonpos]

/-- Claim C7 amended: with discount factor 0, reward 1, an absent starting
entry and learning rate in (0, 1], the stored value after N updates equals
1 - (1 - learning rate) ^ N, is monotonically non decreasing in N, and its
distance to 1 equals (1 - learning rate) ^ N, the initial distance being 1. -/
theorem claim7_amended_convergence :
    ∀ (ag : BlackjackAgent) (act : ℤ) (o o' : PyObj) (N : ℕ),
      0 < ag.learning_rate → ag.learning_rate ≤ 1 →
      ag.discount_factor = 0 →
      qGet ag.q_table (ag.getState o, act) 0 = 0 →
      (qGet (iterLearn ag act o o' 1 N).q_table (ag.getState o, act) 0 =
        1 - (1 - ag.learning_rate) ^ N ∧
       qGet (iterLearn ag act o o' 1 N).q_table (ag.getState o, act) 0 ≤
        qGet (iterLearn ag act o o' 1 (N + 1)).q_table (ag.getState o, act) 0 ∧
       |qGet (iterLearn ag act o o' 1 N).q_table (ag.getState o, act) 0 - 1| =
        (1 - ag.learning_rate) ^ N) := by
  intro ag act o o' N h0 h1 hdf hq
  have hN := iterLearn_value ag act o o' hdf hq N
  have hN1 := iterLearn_value ag act o o' hdf hq (N + 1)
  have hpow : (0 : ℚ) ≤ (1 - ag.learning_rate) ^ N :=
    pow_nonneg (by linarith) N
  refine ⟨hN, ?_, ?_⟩
  · rw [hN, hN1, pow_succ]
    nlinarith
  · rw [hN]
    rw [show 1 - (1 - ag.learning_rate) ^ N - 1 =
      -((1 - ag.learning_rate) ^ N) by ring, abs_neg, abs_of_nonneg hpow]

theorem claim7_witness :
    0 < halfAgent.learning_rate ∧ halfAgent.learning_rate ≤ 1 ∧
    halfAgent.discount_factor = 0 ∧
    qGet halfAgent.q_table (halfAgent.getState (.pyStr "A"), 0) 0 = 0 ∧
    (qGet (iterLearn halfAgent 0 (.pyStr "A") (.pyStr "B") 1 3).q_table
        (halfAgent.getState (.pyStr "A"), 0) 0 =
      1 - (1 - halfAgent.learning_rate) ^ 3 ∧
     qGet (iterLearn halfAgent 0 (.pyStr "A") (.pyStr "B") 1 3).q_table
        (halfAgent.getState (.pyStr "A"), 0) 0 ≤
      qGet (iterLearn halfAgent 0 (.pyStr "A") (.pyStr "B") 1 4).q_table
        (halfAgent.getState (.pyStr "A"), 0) 0 ∧
     |qGet (iterLearn halfAgent 0 (.pyStr "A") (.pyStr "B") 1 3).q_table
        (halfAgent.getState (.pyStr "A"), 0) 0 - 1| =
      (1 - halfAgent.learning_rate) ^ 3) :=
  ⟨by norm_num [halfAgent], by norm_num [halfAgent], rfl, rfl,
    claim7_amended_convergence halfAgent 0 (.pyStr "A") (.pyStr "B") 3
      (by norm_num [halfAgent]) (by norm_num [halfAgent]) rfl rfl⟩

/-- Claim C8: the state encoder is a pure function of the observation alone,
so structurally equal observations always encode to the same table key. -/
theorem claim8_encode_deterministic :
    ∀ (ag1 ag2 : BlackjackAgent) (o1 o2 : PyObj), o1 = o2 →
      ag1.getState o1 = ag2.getState o2 := by
  intro ag1 ag2 o1 o2 h
  rw [h]
  rfl

theorem claim8_witness :
    PyObj.pyInt 3 = PyObj.pyInt 3 ∧
    BlackjackAgent.init.getState (.pyInt 3) =
      exampleAgent.getState (.pyInt 3) :=
  ⟨rfl, claim8_encode_deterministic BlackjackAgent.init exampleAgent
    (.pyInt 3) (.pyInt 3) rfl⟩

/-- Claim C9: the table starts empty, action never touches the agent, and
each call, hence each call sequence, preserves every stored key. -/
theorem claim9_table_monotone :
    BlackjackAgent.init.q_table = [] ∧
    (∀ (ag : BlackjackAgent) (o : PyObj) (x : Bool) (roll : ℚ) (pick : ℕ),
      (ag.action o x roll pick).2 = ag) ∧
    (∀ (ag : BlackjackAgent) (op : AgentOp) (k : String × ℤ),
      hasKey ag.q_table k = true → hasKey (applyOp ag op).q_table k = true) ∧
    (∀ (ag : BlackjackAgent) (ops : List AgentOp) (k : String × ℤ),
      hasKey ag.q_table k = true → hasKey (runOps ag ops).q_table k = true) := by
  have hstep : ∀ (ag : BlackjackAgent) (op : AgentOp) (k : String × ℤ),
      hasKey ag.q_table k = true → hasKey (applyOp ag op).q_table k = true := by
    intro ag op k h
    cases op with
    | act o x roll pick => rw [applyOp, action_snd]; exact h
    | upd a o r b o' => rw [applyOp, learn_q_table, hasKey_qSet, h, Bool.true_or]
  refine ⟨rfl, action_snd, hstep, ?_⟩
  intro ag ops
  induction ops generalizing ag with
  | nil => intro k h; exact h
  | cons op ops ih =>
      intro k h
      rw [runOps, List.foldl_cons]
      exact ih (applyOp ag op) k (hstep ag op k h)

theorem claim9_witness :
    hasKey exampleAgent.q_table ("B", 0) = true ∧
    hasKey (runOps exampleAgent
      [AgentOp.act (.pyStr "A") true 0 0,
       AgentOp.upd 1 (.pyStr "A") 1 false (.pyStr "B")]).q_table
      ("B", 0) = true :=
  ⟨by decide, claim9_table_monotone.2.2.2 exampleAgent
    [AgentOp.act (.pyStr "A") true 0 0,
     AgentOp.upd 1 (.pyStr "A") 1 false (.pyStr "B")] ("B", 0) (by decide)⟩

/-- Claim C10: the encoder is not injective: the integer 1 and the string 1
are distinct observations with the same key, and a learn keyed through the
integer flips the greedy choice for the string. -/
theorem claim10_encoding_not_injective :
    BlackjackAgent.init.getState (.pyInt 1) =
      BlackjackAgent.init.getState (.pyStr "1") ∧
    PyObj.pyInt 1 ≠ PyObj.pyStr "1" ∧
    (BlackjackAgent.init.action (.pyStr "1") true 1 0).1 = 0 ∧
    ((BlackjackAgent.init.learn 1 (.pyInt 1) 10 false
      (.pyStr "Z")).2.action (.pyStr "1") true 1 0).1 = 1 := by
  refine ⟨rfl, by decide, ?_, ?_⟩
  · simp [BlackjackAgent.action, BlackjackAgent.getBestAction,
      BlackjackAgent.getState, BlackjackAgent.init, qGet, listMax,
      List.indexOf, List.findIdx, List.findIdx.go]
  · simp [BlackjackAgent.learn, BlackjackAgent.action,
      BlackjackAgent.getBestAction, BlackjackAgent.getState,
      BlackjackAgent.init, pyString, qGet, listMax, qSet, hasKey,
      show toString (1 : ℤ) = "1" from rfl, sup_eq_max, List.indexOf,
      List.findIdx, List.findIdx.go, show ((0 : ℚ) == 1) = false by decide]

end Blackjack
